import Mathlib

/-!
Verification of the firmware device-name patcher
(`tools/poetryenv/patch_device_name.py`).

Bytes are modelled as `List Nat`; Python's `bytes.find(needle, start)`
is modelled by a bounded forward scan (`pyFind`), and the two search
loops (`find_all`, `find_adv_name_field`) by fuel-indexed recursions
whose fuel is large enough that it is never exhausted.  Files on disk
are modelled as a map from path strings to optional byte lists.
-/

namespace BleCtf

/-- One position `i` matches: the slice `data[i : i + |needle|]` equals
`needle` and the match fits inside `data` (for the empty needle this
means `i ≤ |data|`, exactly as Python's `bytes.find`). -/
def matchesAt (data needle : List Nat) (i : Nat) : Bool :=
  decide (i + needle.length ≤ data.length) &&
    decide (List.take needle.length (List.drop i data) = needle)

/-- Forward scan from `start`, trying at most `fuel` positions. -/
def pyFindFrom (data needle : List Nat) : Nat → Nat → Option Nat
  | _, 0 => none
  | start, fuel + 1 =>
    if matchesAt data needle start then some start
    else pyFindFrom data needle (start + 1) fuel

/-- Python's `data.find(needle, start)` (`none` for `-1`): the least
match position `≥ start`, if any. -/
def pyFind (data needle : List Nat) (start : Nat) : Option Nat :=
  pyFindFrom data needle start (data.length + 1 - start)

/-- The loop body of `find_all`: repeatedly `find` from the previous
match position plus one. -/
def find_allAux (data needle : List Nat) : Nat → Nat → List Nat
  | _, 0 => []
  | start, fuel + 1 =>
    match pyFind data needle start with
    | none => []
    | some i => i :: find_allAux data needle (i + 1) fuel

/-- `find_all(data, needle)` from the source: all match offsets found by
repeated forward search restarting at the previous match start + 1. -/
def find_all (data needle : List Nat) : List Nat :=
  find_allAux data needle 0 (data.length + 2)

/-- The fixed 10-byte advertising header the fallback locator scans for:
`02 01 06 02 0a eb 03 03 FF 00`. -/
def advHeader : List Nat := [0x02, 0x01, 0x06, 0x02, 0x0a, 0xeb, 0x03, 0x03, 0xFF, 0x00]

/-- The loop body of `find_adv_name_field`: for each header occurrence
`i`, with `pos = i + 10`, read `L = data[pos]` and `t = data[pos+1]`
and accept when `t = 0x09`, `L ≥ 1` and `pos + 2 + (L-1) ≤ |data|`. -/
def find_advAux (data : List Nat) : Nat → Nat → Option (Nat × Nat)
  | _, 0 => none
  | start, fuel + 1 =>
    match pyFind data advHeader start with
    | none => none
    | some i =>
      if i + advHeader.length + 2 ≤ data.length then
        if data.getD (i + advHeader.length + 1) 0 = 0x09 ∧
            1 ≤ data.getD (i + advHeader.length) 0 ∧
            i + advHeader.length + 2 + (data.getD (i + advHeader.length) 0 - 1) ≤
              data.length then
          some (i + advHeader.length + 2, data.getD (i + advHeader.length) 0 - 1)
        else find_advAux data (i + 1) fuel
      else find_advAux data (i + 1) fuel

/-- `find_adv_name_field(data)` from the source: `(name_offset, name_max_len)`
for the first accepted header occurrence, else `none`. -/
def find_adv_name_field (data : List Nat) : Option (Nat × Nat) :=
  find_advAux data 0 (data.length + 2)

/-- Write the bytes of `src` into `l` starting at index `off`
(one `List.set` per byte, as the source mutates the bytearray). -/
def writeBytes : List Nat → Nat → List Nat → List Nat
  | l, _, [] => l
  | l, off, b :: rest => writeBytes (l.set off b) (off + 1) rest

/-- The buffer mutation performed by `main`: write `name` at `offset`,
then NUL-pad the rest of the field up to `offset + cap`. -/
def applyPatch (data : List Nat) (offset cap : Nat) (name : List Nat) : List Nat :=
  writeBytes (writeBytes data offset name) (offset + name.length)
    (List.replicate (cap - name.length) 0)

/-- Outcome of the patch computation in `main` (exit 3 = pattern not
found, exit 4 = name too long). -/
inductive PatchOutcome where
  | ok (patched : List Nat) (offset cap : Nat)
  | tooLong
  | notFound
deriving DecidableEq, Repr

/-- The patch computation of `main` (lines 72-115), parametrised by the
fallback locator so that independence from it can be stated. -/
def runPatchWith (loc : List Nat → Option (Nat × Nat))
    (data needle name : List Nat) : PatchOutcome :=
  match find_all data needle with
  | o :: _ =>
    if name.length > needle.length then PatchOutcome.tooLong
    else PatchOutcome.ok (applyPatch data o needle.length name) o needle.length
  | [] =>
    match loc data with
    | none => PatchOutcome.notFound
    | some (off, cap) =>
      if name.length > cap then PatchOutcome.tooLong
      else PatchOutcome.ok (applyPatch data off cap name) off cap

/-- The patch computation with the source's actual fallback locator. -/
def runPatch (data needle name : List Nat) : PatchOutcome :=
  runPatchWith find_adv_name_field data needle name

/-- A file system: a map from path strings to file contents. -/
def FS : Type := String → Option (List Nat)

/-- Write (create or overwrite) the file at path `p`. -/
def fsUpdate (fs : FS) (p : String) (v : List Nat) : FS :=
  fun q => if q = p then some v else fs q

/-- The backup path `<firmware>.bak`. -/
def bakPath (p : String) : String := p ++ ".bak"

/-- `main` end to end: read the firmware, compute the patch, and on
success create the backup (only if absent) and then write the patched
bytes to the output path.  Returns the new file system and exit code. -/
def mainRun (fs : FS) (fw outp : String) (needle name : List Nat) : FS × Nat :=
  match fs fw with
  | none => (fs, 2)
  | some data =>
    match runPatch data needle name with
    | PatchOutcome.notFound => (fs, 3)
    | PatchOutcome.tooLong => (fs, 4)
    | PatchOutcome.ok patched _ _ =>
      let fs1 : FS :=
        match fs (bakPath fw) with
        | some _ => fs
        | none => fsUpdate fs (bakPath fw) data
      (fsUpdate fs1 outp patched, 0)

/-! ### Properties of the forward scanner -/

theorem matchesAt_le {data needle : List Nat} {i : Nat}
    (h : matchesAt data needle i = true) : i + needle.length ≤ data.length := by
  simp only [matchesAt, Bool.and_eq_true, decide_eq_true_eq] at h
  exact h.1

theorem pyFindFrom_some {data needle : List Nat} {start fuel i : Nat}
    (h : pyFindFrom data needle start fuel = some i) :
    start ≤ i ∧ matchesAt data needle i = true ∧
      ∀ j, start ≤ j → j < i → matchesAt data needle j = false := by
  induction fuel generalizing start with
  | zero => simp [pyFindFrom] at h
  | succ n ih =>
    rw [pyFindFrom] at h
    cases hm : matchesAt data needle start with
    | true =>
      rw [hm] at h
      simp at h
      subst h
      exact ⟨Nat.le_refl _, hm, fun j h1 h2 => absurd h1 (by omega)⟩
    | false =>
      rw [hm] at h
      simp at h
      obtain ⟨h1, h2, h3⟩ := ih h
      refine ⟨by omega, h2, fun j hj1 hj2 => ?_⟩
      rcases Nat.eq_or_lt_of_le hj1 with rfl | hlt
      · exact hm
      · exact h3 j hlt hj2

theorem pyFindFrom_none {data needle : List Nat} {start fuel : Nat}
    (h : pyFindFrom data needle start fuel = none) :
    ∀ j, start ≤ j → j < start + fuel → matchesAt data needle j = false := by
  induction fuel generalizing start with
  | zero => intro j h1 h2; omega
  | succ n ih =>
    rw [pyFindFrom] at h
    cases hm : matchesAt data needle start with
    | true => rw [hm] at h; simp at h
    | false =>
      rw [hm] at h
      simp at h
      intro j h1 h2
      rcases Nat.eq_or_lt_of_le h1 with rfl | hlt
      · exact hm
      · exact ih h j hlt (by omega)

theorem pyFind_some {data needle : List Nat} {start i : Nat}
    (h : pyFind data needle start = some i) :
    start ≤ i ∧ matchesAt data needle i = true ∧
      ∀ j, start ≤ j → j < i → matchesAt data needle j = false :=
  pyFindFrom_some h

theorem pyFind_none {data needle : List Nat} {start : Nat}
    (h : pyFind data needle start = none) :
    ∀ j, start ≤ j → matchesAt data needle j = false := by
  intro j hj
  by_cases hlt : j < start + (data.length + 1 - start)
  · exact pyFindFrom_none h j hj hlt
  · cases hm : matchesAt data needle j with
    | false => rfl
    | true => exact absurd (matchesAt_le hm) (by omega)

/-! ### Properties of `find_all` -/

theorem find_allAux_mem {data needle : List Nat} {fuel start x : Nat}
    (hfuel : data.length + 2 ≤ start + fuel) :
    x ∈ find_allAux data needle start fuel ↔
      (start ≤ x ∧ matchesAt data needle x = true) := by
  induction fuel generalizing start with
  | zero =>
    constructor
    · intro h; simp [find_allAux] at h
    · rintro ⟨h1, h2⟩; exact absurd (matchesAt_le h2) (by omega)
  | succ n ih =>
    rw [find_allAux]
    cases hf : pyFind data needle start with
    | none =>
      simp only [List.not_mem_nil, false_iff, not_and]
      intro h1 h2
      rw [pyFind_none hf x h1] at h2
      exact Bool.false_ne_true h2
    | some i =>
      obtain ⟨hi1, hi2, hi3⟩ := pyFind_some hf
      rw [List.mem_cons, ih (by omega)]
      constructor
      · rintro (rfl | ⟨h1, h2⟩)
        · exact ⟨hi1, hi2⟩
        · exact ⟨by omega, h2⟩
      · rintro ⟨h1, h2⟩
        by_cases hx : x = i
        · exact Or.inl hx
        · refine Or.inr ⟨?_, h2⟩
          have hnot : ¬ x < i := fun hlt => by
            rw [hi3 x h1 hlt] at h2; exact Bool.false_ne_true h2
          omega

theorem find_allAux_ge {data needle : List Nat} {fuel start x : Nat}
    (h : x ∈ find_allAux data needle start fuel) : start ≤ x := by
  induction fuel generalizing start with
  | zero => simp [find_allAux] at h
  | succ n ih =>
    rw [find_allAux] at h
    split at h
    · exact absurd h (List.not_mem_nil x)
    · next i heq =>
      obtain ⟨hi1, -, -⟩ := pyFind_some heq
      rcases List.mem_cons.mp h with rfl | h2
      · exact hi1
      · have := ih h2; omega

theorem find_allAux_pairwise (data needle : List Nat) (fuel : Nat) :
    ∀ start, List.Pairwise (· < ·) (find_allAux data needle start fuel) := by
  induction fuel with
  | zero => intro start; simp [find_allAux]
  | succ n ih =>
    intro start
    rw [find_allAux]
    cases hf : pyFind data needle start with
    | none => exact List.Pairwise.nil
    | some i =>
      refine List.Pairwise.cons (fun x hx => ?_) (ih (i + 1))
      have := find_allAux_ge hx
      omega

theorem find_all_mem {data needle : List Nat} {x : Nat} :
    x ∈ find_all data needle ↔ matchesAt data needle x = true := by
  rw [find_all, find_allAux_mem (by omega)]
  simp

theorem find_all_eq_nil {data needle : List Nat} :
    find_all data needle = [] ↔ ∀ i, matchesAt data needle i = false := by
  rw [List.eq_nil_iff_forall_not_mem]
  constructor
  · intro h i
    cases hm : matchesAt data needle i with
    | false => rfl
    | true => exact absurd (find_all_mem.mpr hm) (h i)
  · intro h i hmem
    rw [find_all_mem, h i] at hmem
    exact Bool.false_ne_true hmem

theorem find_allAux_cons {data needle : List Nat} {fuel start o : Nat} {rest : List Nat}
    (h : find_allAux data needle start fuel = o :: rest) :
    pyFind data needle start = some o := by
  cases fuel with
  | zero => simp [find_allAux] at h
  | succ n =>
    rw [find_allAux] at h
    split at h
    · exact absurd h (by simp)
    · next i heq =>
      injection h with h1 _
      subst h1
      exact heq

theorem find_all_head {data needle : List Nat} {o : Nat} {rest : List Nat}
    (h : find_all data needle = o :: rest) :
    matchesAt data needle o = true ∧ ∀ j, j < o → matchesAt data needle j = false := by
  rw [find_all] at h
  obtain ⟨-, h2, h3⟩ := pyFind_some (find_allAux_cons h)
  exact ⟨h2, fun j hj => h3 j (Nat.zero_le j) hj⟩

/-! ### Properties of `writeBytes` and `applyPatch` -/

theorem writeBytes_length (src : List Nat) : ∀ (l : List Nat) (off : Nat),
    (writeBytes l off src).length = l.length := by
  induction src with
  | nil => intro l off; rfl
  | cons b rest ih =>
    intro l off
    rw [writeBytes, ih, List.length_set]

theorem writeBytes_getD_outside (src : List Nat) : ∀ (l : List Nat) (off j : Nat),
    (j < off ∨ off + src.length ≤ j) →
    (writeBytes l off src).getD j 0 = l.getD j 0 := by
  induction src with
  | nil => intro l off j _; rfl
  | cons b rest ih =>
    intro l off j h
    rw [List.length_cons] at h
    rw [writeBytes, ih _ _ _ (by omega)]
    have hne : off ≠ j := by omega
    simp only [List.getD_eq_getElem?_getD]
    rw [List.getElem?_set_ne hne]

theorem writeBytes_getD_inside (src : List Nat) : ∀ (l : List Nat) (off k : Nat),
    k < src.length → off + src.length ≤ l.length →
    (writeBytes l off src).getD (off + k) 0 = src.getD k 0 := by
  induction src with
  | nil => intro l off k h1 _; exact absurd h1 (by simp)
  | cons b rest ih =>
    intro l off k h1 h2
    rw [List.length_cons] at h1 h2
    rw [writeBytes]
    cases k with
    | zero =>
      simp only [Nat.add_zero]
      rw [writeBytes_getD_outside rest (l.set off b) (off + 1) off (Or.inl (by omega))]
      simp only [List.getD_eq_getElem?_getD]
      rw [List.getElem?_set_self (by omega)]
      simp
    | succ k2 =>
      have e : off + (k2 + 1) = (off + 1) + k2 := by omega
      rw [e, ih _ _ _ (by omega) (by rw [List.length_set]; omega)]
      rw [List.getD_cons_succ]

theorem applyPatch_length (data : List Nat) (off cap : Nat) (name : List Nat) :
    (applyPatch data off cap name).length = data.length := by
  rw [applyPatch, writeBytes_length, writeBytes_length]

theorem applyPatch_getD_outside {data : List Nat} {off cap : Nat} {name : List Nat}
    (hcap : name.length ≤ cap) {j : Nat} (hj : j < off ∨ off + cap ≤ j) :
    (applyPatch data off cap name).getD j 0 = data.getD j 0 := by
  have hA : j < off + name.length ∨
      (off + name.length) + (List.replicate (cap - name.length) 0).length ≤ j := by
    rw [List.length_replicate]
    rcases hj with h | h
    · exact Or.inl (by omega)
    · exact Or.inr (by omega)
  have hB : j < off ∨ off + name.length ≤ j := by
    rcases hj with h | h
    · exact Or.inl h
    · exact Or.inr (by omega)
  rw [applyPatch, writeBytes_getD_outside _ _ _ _ hA, writeBytes_getD_outside _ _ _ _ hB]

theorem applyPatch_getD_name {data : List Nat} {off cap : Nat} {name : List Nat}
    (hbound : off + name.length ≤ data.length) {k : Nat} (hk : k < name.length) :
    (applyPatch data off cap name).getD (off + k) 0 = name.getD k 0 := by
  rw [applyPatch, writeBytes_getD_outside _ _ _ _ (Or.inl (by omega))]
  exact writeBytes_getD_inside _ _ _ _ hk hbound

theorem applyPatch_getD_pad {data : List Nat} {off cap : Nat} {name : List Nat}
    (hcap : name.length ≤ cap) (hbound : off + cap ≤ data.length) {k : Nat}
    (hk1 : name.length ≤ k) (hk2 : k < cap) :
    (applyPatch data off cap name).getD (off + k) 0 = 0 := by
  rw [applyPatch]
  have e : off + k = (off + name.length) + (k - name.length) := by omega
  rw [e, writeBytes_getD_inside _ _ _ _ (by rw [List.length_replicate]; omega)
    (by rw [writeBytes_length, List.length_replicate]; omega)]
  simp only [List.getD_eq_getElem?_getD, List.getElem?_replicate]
  split <;> rfl

theorem ext_getD {l1 l2 : List Nat} (hlen : l1.length = l2.length)
    (h : ∀ j, j < l1.length → l1.getD j 0 = l2.getD j 0) : l1 = l2 := by
  refine List.ext_getElem hlen fun n h1 h2 => ?_
  have hd := h n h1
  rw [List.getD_eq_getElem?_getD, List.getD_eq_getElem?_getD,
    List.getElem?_eq_getElem h1, List.getElem?_eq_getElem h2] at hd
  exact hd

/-! ### Properties of the advertising-field locator -/

theorem advHeader_length : advHeader.length = 10 := rfl

/-- A header occurrence at `i` is accepted: with `pos = i + 10`,
`pos + 2 ≤ |data|`, `data[pos+1] = 0x09`, `data[pos] ≥ 1` and
`pos + 2 + (data[pos] - 1) ≤ |data|`. -/
def advOK (data : List Nat) (i : Nat) : Bool :=
  matchesAt data advHeader i && (decide (i + 10 + 2 ≤ data.length) &&
    (decide (data.getD (i + 10 + 1) 0 = 0x09) && (decide (1 ≤ data.getD (i + 10) 0) &&
      decide (i + 10 + 2 + (data.getD (i + 10) 0 - 1) ≤ data.length))))

theorem advOK_no_match {data : List Nat} {j : Nat}
    (h : matchesAt data advHeader j = false) : advOK data j = false := by
  rw [advOK, h, Bool.false_and]

theorem advOK_elim {data : List Nat} {i : Nat} (h : advOK data i = true) :
    matchesAt data advHeader i = true ∧ i + 10 + 2 ≤ data.length ∧
      data.getD (i + 10 + 1) 0 = 0x09 ∧ 1 ≤ data.getD (i + 10) 0 ∧
      i + 10 + 2 + (data.getD (i + 10) 0 - 1) ≤ data.length := by
  simp only [advOK, Bool.and_eq_true, decide_eq_true_eq] at h
  tauto

theorem find_advAux_some {data : List Nat} {fuel start off cap : Nat}
    (h : find_advAux data start fuel = some (off, cap)) :
    ∃ i, start ≤ i ∧ advOK data i = true ∧
      (∀ j, start ≤ j → j < i → advOK data j = false) ∧
      off = i + 10 + 2 ∧ cap = data.getD (i + 10) 0 - 1 := by
  induction fuel generalizing start with
  | zero => simp [find_advAux] at h
  | succ n ih =>
    rw [find_advAux] at h
    split at h
    · exact absurd h (by simp)
    · next i heq =>
      rw [advHeader_length] at h
      obtain ⟨hi1, hi2, hi3⟩ := pyFind_some heq
      have hmin0 : ∀ j, start ≤ j → j < i → advOK data j = false := fun j a b =>
        advOK_no_match (hi3 j a b)
      by_cases hc1 : i + 10 + 2 ≤ data.length
      · rw [if_pos hc1] at h
        by_cases hc2 : data.getD (i + 10 + 1) 0 = 0x09 ∧ 1 ≤ data.getD (i + 10) 0 ∧
            i + 10 + 2 + (data.getD (i + 10) 0 - 1) ≤ data.length
        · rw [if_pos hc2] at h
          simp only [Option.some.injEq, Prod.mk.injEq] at h
          obtain ⟨hoff, hcap⟩ := h
          refine ⟨i, hi1, ?_, hmin0, hoff.symm, hcap.symm⟩
          simp only [advOK, hi2, Bool.true_and, Bool.and_eq_true, decide_eq_true_eq]
          exact ⟨hc1, hc2.1, hc2.2.1, hc2.2.2⟩
        · rw [if_neg hc2] at h
          obtain ⟨i2, hi21, hi22, hi23, hi24, hi25⟩ := ih h
          refine ⟨i2, by omega, hi22, ?_, hi24, hi25⟩
          intro j hj1 hj2
          by_cases hji : j < i
          · exact hmin0 j hj1 hji
          · by_cases hje : j = i
            · subst hje
              cases ha : advOK data j with
              | false => rfl
              | true =>
                obtain ⟨-, -, e1, e2, e3⟩ := advOK_elim ha
                exact absurd ⟨e1, e2, e3⟩ hc2
            · exact hi23 j (by omega) hj2
      · rw [if_neg hc1] at h
        obtain ⟨i2, hi21, hi22, hi23, hi24, hi25⟩ := ih h
        refine ⟨i2, by omega, hi22, ?_, hi24, hi25⟩
        intro j hj1 hj2
        by_cases hji : j < i
        · exact hmin0 j hj1 hji
        · by_cases hje : j = i
          · subst hje
            cases ha : advOK data j with
            | false => rfl
            | true => exact absurd (advOK_elim ha).2.1 hc1
          · exact hi23 j (by omega) hj2

theorem find_advAux_none {data : List Nat} {fuel start : Nat}
    (h : find_advAux data start fuel = none) (hfuel : data.length + 2 ≤ start + fuel) :
    ∀ i, start ≤ i → advOK data i = false := by
  induction fuel generalizing start with
  | zero =>
    intro i hi
    cases ha : advOK data i with
    | false => rfl
    | true =>
      have hm := matchesAt_le (advOK_elim ha).1
      rw [advHeader_length] at hm
      omega
  | succ n ih =>
    rw [find_advAux] at h
    split at h
    · next heq =>
      intro i hi
      exact advOK_no_match (pyFind_none heq i hi)
    · next i heq =>
      rw [advHeader_length] at h
      obtain ⟨hi1, hi2, hi3⟩ := pyFind_some heq
      have hmatch := matchesAt_le hi2
      rw [advHeader_length] at hmatch
      have ihfuel : data.length + 2 ≤ (i + 1) + n := by omega
      by_cases hc1 : i + 10 + 2 ≤ data.length
      · rw [if_pos hc1] at h
        by_cases hc2 : data.getD (i + 10 + 1) 0 = 0x09 ∧ 1 ≤ data.getD (i + 10) 0 ∧
            i + 10 + 2 + (data.getD (i + 10) 0 - 1) ≤ data.length
        · rw [if_pos hc2] at h
          exact absurd h (Option.some_ne_none _)
        · rw [if_neg hc2] at h
          intro j hj
          by_cases hji : j < i
          · exact advOK_no_match (hi3 j hj hji)
          · by_cases hje : j = i
            · subst hje
              cases ha : advOK data j with
              | false => rfl
              | true =>
                obtain ⟨-, -, e1, e2, e3⟩ := advOK_elim ha
                exact absurd ⟨e1, e2, e3⟩ hc2
            · exact ih h ihfuel j (by omega)
      · rw [if_neg hc1] at h
        intro j hj
        by_cases hji : j < i
        · exact advOK_no_match (hi3 j hj hji)
        · by_cases hje : j = i
          · subst hje
            cases ha : advOK data j with
            | false => rfl
            | true => exact absurd (advOK_elim ha).2.1 hc1
          · exact ih h ihfuel j (by omega)

theorem find_adv_some {data : List Nat} {off cap : Nat}
    (h : find_adv_name_field data = some (off, cap)) :
    ∃ i, advOK data i = true ∧ (∀ j, j < i → advOK data j = false) ∧
      off = i + 10 + 2 ∧ cap = data.getD (i + 10) 0 - 1 := by
  obtain ⟨i, -, h2, h3, h4, h5⟩ := find_advAux_some h
  exact ⟨i, h2, fun j hj => h3 j (Nat.zero_le j) hj, h4, h5⟩

theorem find_adv_none {data : List Nat} (h : find_adv_name_field data = none) (i : Nat) :
    advOK data i = false :=
  find_advAux_none h (by omega) i (Nat.zero_le i)

/-! ### Properties of the patch computation -/

theorem runPatchWith_cons (loc : List Nat → Option (Nat × Nat))
    {data needle : List Nat} {o : Nat} {rest : List Nat} (name : List Nat)
    (h : find_all data needle = o :: rest) :
    runPatchWith loc data needle name =
      if name.length > needle.length then PatchOutcome.tooLong
      else PatchOutcome.ok (applyPatch data o needle.length name) o needle.length := by
  rw [runPatchWith, h]

theorem runPatchWith_nil_none (loc : List Nat → Option (Nat × Nat))
    {data needle : List Nat} (name : List Nat) (h : find_all data needle = [])
    (h2 : loc data = none) :
    runPatchWith loc data needle name = PatchOutcome.notFound := by
  rw [runPatchWith, h, h2]

theorem runPatchWith_nil_some (loc : List Nat → Option (Nat × Nat))
    {data needle : List Nat} (name : List Nat) {off cap : Nat}
    (h : find_all data needle = []) (h2 : loc data = some (off, cap)) :
    runPatchWith loc data needle name =
      if name.length > cap then PatchOutcome.tooLong
      else PatchOutcome.ok (applyPatch data off cap name) off cap := by
  rw [runPatchWith, h, h2]

theorem runPatch_ok {data needle name p : List Nat} {off cap : Nat}
    (h : runPatch data needle name = PatchOutcome.ok p off cap) :
    p = applyPatch data off cap name ∧ name.length ≤ cap ∧ off + cap ≤ data.length := by
  rw [runPatch, runPatchWith] at h
  split at h
  · next o rest heq =>
    split at h
    · exact absurd h (by simp)
    · next hle =>
      injection h with h1 h2 h3
      subst h2; subst h3
      exact ⟨h1.symm, by omega, matchesAt_le (find_all_head heq).1⟩
  · next heq =>
    split at h
    · exact absurd h (by simp)
    · next off0 cap0 heq2 =>
      split at h
      · exact absurd h (by simp)
      · next hle =>
        injection h with h1 h2 h3
        subst h2; subst h3
        obtain ⟨i, hOK, -, hoff, hcap⟩ := find_adv_some heq2
        obtain ⟨-, -, -, e2, e3⟩ := advOK_elim hOK
        exact ⟨h1.symm, by omega, by omega⟩

/-! ### Concrete example values used by the witnesses -/

/-- ASCII `BBLECTF\x00\x00`: the needle `BLECTF` occurs at offset 1. -/
def exImage : List Nat := [66, 66, 76, 69, 67, 84, 70, 0, 0]

/-- ASCII `BLECTF`, the default needle. -/
def exNeedle : List Nat := [66, 76, 69, 67, 84, 70]

/-- ASCII `FOO`. -/
def exName : List Nat := [70, 79, 79]

/-- `exImage` after patching: `FOO` + 3 NULs written at offset 1. -/
def exPatched : List Nat := [66, 70, 79, 79, 0, 0, 0, 0, 0]

/-- An image with no needle: the advertising header, then length byte 6,
type byte 0x09, then ASCII `OLDNAM`. -/
def advImage : List Nat := advHeader ++ [6, 9, 79, 76, 68, 78, 65, 77]

/-- ASCII `NEW`. -/
def advName : List Nat := [78, 69, 87]

/-- `advImage` after patching `NEW` into the located field (offset 12,
capacity 5): `NEW` + 2 NULs, last content byte untouched. -/
def advPatched : List Nat :=
  [2, 1, 6, 2, 10, 235, 3, 3, 255, 0, 6, 9, 78, 69, 87, 0, 0, 77]

/-- A one-file file system holding `[1, 2, 3]` at `fw.bin`. -/
def fsA : FS := fun p => if p = "fw.bin" then some [1, 2, 3] else none

/-- A file system with firmware `[65, 66]` and an existing backup `[9]`. -/
def fsB : FS := fun p =>
  if p = "fw.bin" then some [65, 66]
  else if p = "fw.bin.bak" then some [9] else none

/-- A file system with firmware `[65, 66]` and no backup. -/
def fsC : FS := fun p => if p = "fw.bin" then some [65, 66] else none

/-- A file system whose firmware is `advImage`, with no backup. -/
def fsAdv : FS := fun p => if p = "fw.bin" then some advImage else none

/-! ### The claims -/

/-- C1: for every image, every discovered patch target (needle or
advertising origin) and every fitting name, the patched buffer has the
same length as the input and every byte outside
`[offset, offset + capacity)` is identical to the input. -/
theorem C1_patch_frame {data needle name p : List Nat} {off cap : Nat}
    (h : runPatch data needle name = PatchOutcome.ok p off cap) :
    p.length = data.length ∧
      ∀ j, j < off ∨ off + cap ≤ j → p.getD j 0 = data.getD j 0 := by
  obtain ⟨hp, hcap, -⟩ := runPatch_ok h
  subst hp
  exact ⟨applyPatch_length data off cap name, fun j hj =>
    applyPatch_getD_outside hcap hj⟩

theorem C1_patch_frame_witness :
    exPatched.length = exImage.length ∧ exPatched.getD 7 0 = exImage.getD 7 0 := by
  have h := @C1_patch_frame exImage exNeedle exName exPatched 1 6 (by decide)
  exact ⟨h.1, h.2 7 (Or.inr (by decide))⟩

/-- C3: when the needle occurs, the fallback locator is never consulted
(the result does not depend on it), the patch target is the lowest-offset
occurrence, and the capacity is the needle's length. -/
theorem C3_fallback_ordering {data needle : List Nat} {o : Nat} {rest : List Nat}
    (name : List Nat) (h : find_all data needle = o :: rest) :
    (∀ loc1 loc2, runPatchWith loc1 data needle name =
      runPatchWith loc2 data needle name) ∧
    (∀ j, j < o → matchesAt data needle j = false) ∧
    (name.length ≤ needle.length →
      runPatch data needle name =
        PatchOutcome.ok (applyPatch data o needle.length name) o needle.length) := by
  refine ⟨fun loc1 loc2 => ?_, (find_all_head h).2, fun hle => ?_⟩
  · rw [runPatchWith_cons loc1 name h, runPatchWith_cons loc2 name h]
  · rw [runPatch, runPatchWith_cons _ name h, if_neg (by omega)]

theorem C3_fallback_ordering_witness :
    runPatch exImage exNeedle exName =
      PatchOutcome.ok (applyPatch exImage 1 exNeedle.length exName) 1
        exNeedle.length :=
  (@C3_fallback_ordering exImage exNeedle 1 [] exName (by decide)).2.2 (by decide)

/-- C7: `find_all` returns a strictly ascending list containing exactly
the offsets where the needle occurs (the slice at the offset equals the
needle and fits), so overlapping occurrences are reported and the empty
list is the (non-error) result when there is no match. -/
theorem C7_find_all_spec (data needle : List Nat) :
    List.Pairwise (· < ·) (find_all data needle) ∧
      ∀ i, i ∈ find_all data needle ↔
        (i + needle.length ≤ data.length ∧
          List.take needle.length (List.drop i data) = needle) := by
  refine ⟨find_allAux_pairwise data needle _ 0, fun i => ?_⟩
  rw [find_all_mem]
  simp [matchesAt]

theorem getD_of_lt {l : List Nat} {k : Nat} (h : k < l.length) : l.getD k 0 = l[k] := by
  rw [List.getD_eq_getElem?_getD, List.getElem?_eq_getElem h]
  rfl

theorem applyPatch_slice {data : List Nat} {off cap : Nat} {name : List Nat}
    (hcap : name.length ≤ cap) (hbound : off + cap ≤ data.length) :
    List.take cap (List.drop off (applyPatch data off cap name)) =
      name ++ List.replicate (cap - name.length) 0 := by
  have hAPlen : (applyPatch data off cap name).length = data.length :=
    applyPatch_length data off cap name
  apply List.ext_getElem
  · rw [List.length_take, List.length_drop, hAPlen, List.length_append,
      List.length_replicate]
    omega
  · intro n h1 h2
    rw [List.length_take, List.length_drop, hAPlen] at h1
    rw [List.getElem_take, List.getElem_drop]
    have hn : n < cap := by omega
    have hoffn : off + n < (applyPatch data off cap name).length := by
      rw [hAPlen]; omega
    rw [← getD_of_lt hoffn, ← getD_of_lt h2]
    by_cases hname : n < name.length
    · rw [applyPatch_getD_name (by omega) hname]
      simp only [List.getD_eq_getElem?_getD, List.getElem?_append, hname, if_pos]
    · rw [applyPatch_getD_pad hcap hbound (by omega) hn]
      simp only [List.getD_eq_getElem?_getD, List.getElem?_append, hname, if_false,
        List.getElem?_replicate]
      have : n - name.length < cap - name.length := by omega
      rw [if_pos this]
      rfl

/-- C4: for an image containing the needle and a fitting name, the
patched bytes at the first-occurrence offset are exactly the name
followed by NUL padding up to the needle length, and all other bytes
are unchanged. -/
theorem C4_roundtrip {data needle : List Nat} {o : Nat} {rest : List Nat}
    (name : List Nat) (h : find_all data needle = o :: rest)
    (hle : name.length ≤ needle.length) :
    runPatch data needle name =
      PatchOutcome.ok (applyPatch data o needle.length name) o needle.length ∧
    List.take needle.length (List.drop o (applyPatch data o needle.length name)) =
      name ++ List.replicate (needle.length - name.length) 0 ∧
    ∀ j, j < o ∨ o + needle.length ≤ j →
      (applyPatch data o needle.length name).getD j 0 = data.getD j 0 := by
  have hbound : o + needle.length ≤ data.length := matchesAt_le (find_all_head h).1
  refine ⟨?_, applyPatch_slice hle hbound, fun j hj =>
    applyPatch_getD_outside hle hj⟩
  rw [runPatch, runPatchWith_cons _ name h, if_neg (by omega)]

theorem C4_roundtrip_witness :
    runPatch exImage exNeedle exName =
      PatchOutcome.ok (applyPatch exImage 1 exNeedle.length exName) 1
        exNeedle.length ∧
    List.take exNeedle.length (List.drop 1 (applyPatch exImage 1 exNeedle.length exName)) =
      [70, 79, 79, 0, 0, 0] := by
  have h := @C4_roundtrip exImage exNeedle 1 [] exName (by decide) (by decide)
  refine ⟨h.1, ?_⟩
  rw [h.2.1]
  decide

/-- C5: the advertising locator returns a target iff some header
occurrence is accepted (with `pos = i + 10`: `pos + 2 ≤ |image|`,
`image[pos+1] = 0x09`, `image[pos] ≥ 1`,
`pos + 2 + (image[pos]-1) ≤ |image|`); the returned target comes from
the first accepted occurrence (`offset = pos + 2`,
`capacity = image[pos] - 1`) and satisfies
`offset + capacity ≤ |image|`. -/
theorem C5_adv_locator (data : List Nat) :
    ((find_adv_name_field data).isSome ↔ ∃ i, advOK data i = true) ∧
    (∀ off cap, find_adv_name_field data = some (off, cap) →
      12 ≤ off ∧ advOK data (off - 12) = true ∧
        (∀ j, j < off - 12 → advOK data j = false) ∧
        cap = data.getD (off - 2) 0 - 1 ∧ off + cap ≤ data.length) := by
  constructor
  · constructor
    · intro h
      obtain ⟨⟨off, cap⟩, he⟩ := Option.isSome_iff_exists.mp h
      obtain ⟨i, hOK, -, -, -⟩ := find_adv_some he
      exact ⟨i, hOK⟩
    · rintro ⟨i, hOK⟩
      cases he : find_adv_name_field data with
      | none => rw [find_adv_none he i] at hOK; exact absurd hOK (by simp)
      | some r => rfl
  · intro off cap he
    obtain ⟨i, hOK, hmin, hoff, hcap⟩ := find_adv_some he
    obtain ⟨-, e1, -, e2, e3⟩ := advOK_elim hOK
    have hi : off - 12 = i := by omega
    have hi2 : off - 2 = i + 10 := by omega
    rw [hi, hi2]
    exact ⟨by omega, hOK, fun j hj => hmin j (by omega), hcap, by omega⟩

theorem C5_adv_locator_witness :
    12 ≤ 12 ∧ advOK advImage 0 = true := by
  have h := (C5_adv_locator advImage).2 12 5 (by decide)
  exact ⟨h.1, by have h2 := h.2.1; norm_num at h2 ⊢; exact h2⟩

/-- C6 counterexample: an image containing the needle `AB` twice.  The
first run patches the first occurrence; the second run still finds the
needle at the second occurrence and patches it too, so the twice-patched
image differs from the once-patched one although both runs succeed. -/
theorem C6_counterexample :
    runPatch [65, 66, 65, 66] [65, 66] [90] =
      PatchOutcome.ok [90, 0, 65, 66] 0 2 ∧
    runPatch [90, 0, 65, 66] [65, 66] [90] =
      PatchOutcome.ok [90, 0, 90, 0] 2 2 ∧
    ([90, 0, 90, 0] : List Nat) ≠ [90, 0, 65, 66] := by
  exact ⟨by decide, by decide, by decide⟩

/-- C6 amended: a second successful run that selects the same patch
target (same offset and capacity) produces output byte-identical to the
once-patched image. -/
theorem C6_amended_idempotent {data needle name p p2 : List Nat} {off cap : Nat}
    (h1 : runPatch data needle name = PatchOutcome.ok p off cap)
    (h2 : runPatch p needle name = PatchOutcome.ok p2 off cap) :
    p2 = p := by
  obtain ⟨hp, hcap, hbound⟩ := runPatch_ok h1
  obtain ⟨hp2, -, -⟩ := runPatch_ok h2
  subst hp
  subst hp2
  have hL : (applyPatch data off cap name).length = data.length :=
    applyPatch_length data off cap name
  apply ext_getD
  · rw [applyPatch_length, hL]
  · intro j hj
    rw [applyPatch_length, hL] at hj
    by_cases hj1 : j < off
    · rw [applyPatch_getD_outside hcap (Or.inl hj1)]
    · by_cases hj2 : j < off + name.length
      · have e : j = off + (j - off) := by omega
        rw [e, applyPatch_getD_name (by rw [hL]; omega) (by omega),
          applyPatch_getD_name (by omega) (by omega)]
      · by_cases hj3 : j < off + cap
        · have e : j = off + (j - off) := by omega
          rw [e, applyPatch_getD_pad hcap (by rw [hL]; omega) (by omega) (by omega),
            applyPatch_getD_pad hcap (by omega) (by omega) (by omega)]
        · rw [applyPatch_getD_outside hcap (Or.inr (by omega))]

theorem C6_amended_idempotent_witness :
    runPatch advImage exNeedle advName = PatchOutcome.ok advPatched 12 5 ∧
    runPatch advPatched exNeedle advName = PatchOutcome.ok advPatched 12 5 ∧
    advPatched = advPatched := by
  refine ⟨by decide, by decide, ?_⟩
  exact @C6_amended_idempotent advImage exNeedle advName advPatched advPatched 12 5
    (by decide) (by decide)

/-! ### Properties of `mainRun` -/

theorem bakPath_ne (p : String) : p ≠ bakPath p := by
  intro h
  have hlen : p.length = (bakPath p).length := by rw [← h]
  rw [bakPath, String.length_append] at hlen
  have h4 : (".bak" : String).length = 4 := rfl
  omega

theorem mainRun_notFound {fs : FS} {fw : String} (outp : String)
    {needle name data : List Nat} (hdata : fs fw = some data)
    (hr : runPatch data needle name = PatchOutcome.notFound) :
    mainRun fs fw outp needle name = (fs, 3) := by
  simp only [mainRun, hdata, hr]

theorem mainRun_tooLong {fs : FS} {fw : String} (outp : String)
    {needle name data : List Nat} (hdata : fs fw = some data)
    (hr : runPatch data needle name = PatchOutcome.tooLong) :
    mainRun fs fw outp needle name = (fs, 4) := by
  simp only [mainRun, hdata, hr]

theorem mainRun_ok_exit {fs : FS} {fw : String} (outp : String)
    {needle name data p : List Nat} {o c : Nat} (hdata : fs fw = some data)
    (hr : runPatch data needle name = PatchOutcome.ok p o c) :
    (mainRun fs fw outp needle name).2 = 0 := by
  simp only [mainRun, hdata, hr]

theorem mainRun_ok_lookup {fs : FS} {fw outp : String}
    {needle name data p : List Nat} {o c : Nat} (hdata : fs fw = some data)
    (hr : runPatch data needle name = PatchOutcome.ok p o c) (q : String) :
    (mainRun fs fw outp needle name).1 q =
      if q = outp then some p
      else if q = bakPath fw then
        (match fs (bakPath fw) with | some b => some b | none => some data)
      else fs q := by
  simp only [mainRun, hdata, hr, fsUpdate]
  by_cases h1 : q = outp
  · rw [if_pos h1, if_pos h1]
  · rw [if_neg h1, if_neg h1]
    cases hb : fs (bakPath fw) with
    | some b =>
      simp only [hb]
      by_cases h2 : q = bakPath fw
      · rw [if_pos h2, h2, hb]
      · rw [if_neg h2]
    | none => simp only [hb, fsUpdate]

/-- C2: if neither the needle nor a valid advertising field is found the
run exits with code 3; if a target is found but the name exceeds its
capacity it exits with code 4; in both cases the file system is
completely unchanged (no backup, no write). -/
theorem C2_failure_no_mutation (fs : FS) (fw outp : String)
    (needle name data : List Nat) (hdata : fs fw = some data) :
    (find_all data needle = [] → find_adv_name_field data = none →
      mainRun fs fw outp needle name = (fs, 3)) ∧
    (∀ o rest, find_all data needle = o :: rest → needle.length < name.length →
      mainRun fs fw outp needle name = (fs, 4)) ∧
    (∀ off cap, find_all data needle = [] →
      find_adv_name_field data = some (off, cap) → cap < name.length →
      mainRun fs fw outp needle name = (fs, 4)) := by
  refine ⟨fun h1 h2 => ?_, fun o rest h1 h2 => ?_, fun off cap h1 h2 h3 => ?_⟩
  · exact mainRun_notFound outp hdata
      (by rw [runPatch]; exact runPatchWith_nil_none _ name h1 h2)
  · exact mainRun_tooLong outp hdata
      (by rw [runPatch, runPatchWith_cons _ name h1, if_pos (by omega)])
  · exact mainRun_tooLong outp hdata
      (by rw [runPatch, runPatchWith_nil_some _ name h1 h2, if_pos (by omega)])

theorem C2_failure_no_mutation_witness :
    mainRun fsA "fw.bin" "fw.bin" [9] [7] = (fsA, 3) ∧
    mainRun fsA "fw.bin" "fw.bin" [1] [7, 8] = (fsA, 4) ∧
    mainRun fsAdv "fw.bin" "out.bin" [4] [1, 2, 3, 4, 5, 6] = (fsAdv, 4) := by
  refine ⟨?_, ?_, ?_⟩
  · exact (C2_failure_no_mutation fsA "fw.bin" "fw.bin" [9] [7] [1, 2, 3]
      (by decide)).1 (by decide) (by decide)
  · exact (C2_failure_no_mutation fsA "fw.bin" "fw.bin" [1] [7, 8] [1, 2, 3]
      (by decide)).2.1 0 [] (by decide) (by decide)
  · exact (C2_failure_no_mutation fsAdv "fw.bin" "out.bin" [4] [1, 2, 3, 4, 5, 6]
      advImage (by decide)).2.2 12 5 (by decide) (by decide) (by decide)

/-- C8 counterexample: invoking the tool with `--out` equal to the
backup path `<firmware>.bak` overwrites an existing backup with the
patched output, so a later run can modify the first-ever backup. -/
theorem C8_counterexample :
    fsB (bakPath "fw.bin") = some [9] ∧
    (mainRun fsB "fw.bin" (bakPath "fw.bin") [65] [66]).2 = 0 ∧
    (mainRun fsB "fw.bin" (bakPath "fw.bin") [65] [66]).1 (bakPath "fw.bin") =
      some [66, 66] ∧
    (mainRun fsB "fw.bin" (bakPath "fw.bin") [65] [66]).1 (bakPath "fw.bin") ≠
      some [9] := by
  exact ⟨by decide, by decide, by decide, by decide⟩

/-- C8 amended: the backup at `<firmware>.bak` is created at most once
(a run copies the firmware there only when that path holds no file, and
only with the pre-run firmware bytes), and for every run whose output
path is not the backup path an existing backup is preserved
byte-for-byte. -/
theorem C8_amended_backup {fs : FS} {fw outp : String} (needle name : List Nat)
    (hout : outp ≠ bakPath fw) :
    (∀ b, fs (bakPath fw) = some b →
      (mainRun fs fw outp needle name).1 (bakPath fw) = some b) ∧
    (∀ data, fs fw = some data → fs (bakPath fw) = none →
      ((mainRun fs fw outp needle name).1 (bakPath fw) = none ∨
        (mainRun fs fw outp needle name).1 (bakPath fw) = some data)) ∧
    (∀ data, fs fw = some data → fs (bakPath fw) = none →
      (mainRun fs fw outp needle name).2 = 0 →
      (mainRun fs fw outp needle name).1 (bakPath fw) = some data) := by
  refine ⟨fun b hb => ?_, fun data hdata hb => ?_, fun data hdata hb h0 => ?_⟩
  · cases hfw : fs fw with
    | none => simp only [mainRun, hfw]; exact hb
    | some data =>
      cases hr : runPatch data needle name with
      | notFound => rw [mainRun_notFound outp hfw hr]; exact hb
      | tooLong => rw [mainRun_tooLong outp hfw hr]; exact hb
      | ok p o c =>
        rw [mainRun_ok_lookup hfw hr, if_neg (Ne.symm hout), if_pos rfl, hb]
  · cases hr : runPatch data needle name with
    | notFound => rw [mainRun_notFound outp hdata hr]; exact Or.inl hb
    | tooLong => rw [mainRun_tooLong outp hdata hr]; exact Or.inl hb
    | ok p o c =>
      rw [mainRun_ok_lookup hdata hr, if_neg (Ne.symm hout), if_pos rfl, hb]
      exact Or.inr rfl
  · cases hr : runPatch data needle name with
    | notFound => rw [mainRun_notFound outp hdata hr] at h0; simp at h0
    | tooLong => rw [mainRun_tooLong outp hdata hr] at h0; simp at h0
    | ok p o c =>
      rw [mainRun_ok_lookup hdata hr, if_neg (Ne.symm hout), if_pos rfl, hb]

theorem C8_amended_backup_witness :
    (mainRun fsB "fw.bin" "fw.bin" [65] [66]).1 (bakPath "fw.bin") = some [9] :=
  (@C8_amended_backup fsB "fw.bin" "fw.bin" [65] [66] (by decide)).1 [9] (by decide)

/-- C9 counterexample: a successful run whose `--out` path differs from
the firmware path but equals `<firmware>.bak` leaves the input firmware
unchanged, yet the backup it creates ends up holding the patched bytes,
not the unmodified input. -/
theorem C9_counterexample :
    (mainRun fsC "fw.bin" "fw.bin.bak" [65] [66]).2 = 0 ∧
    ("fw.bin.bak" : String) ≠ "fw.bin" ∧
    fsC (bakPath "fw.bin") = none ∧
    (mainRun fsC "fw.bin" "fw.bin.bak" [65] [66]).1 "fw.bin" = some [65, 66] ∧
    (mainRun fsC "fw.bin" "fw.bin.bak" [65] [66]).1 (bakPath "fw.bin") =
      some [66, 66] ∧
    (mainRun fsC "fw.bin" "fw.bin.bak" [65] [66]).1 (bakPath "fw.bin") ≠
      some [65, 66] := by
  exact ⟨by decide, by decide, by decide, by decide, by decide, by decide⟩

/-- C9 amended: on every successful run whose output path differs from
both the firmware path and the backup path, the firmware file is left
unchanged, the backup is created (if absent) from the unmodified input
and preserved (if present), and no path other than the output and
backup paths is written. -/
theorem C9_out_separate {fs : FS} {fw outp : String} {needle name data : List Nat}
    (hdata : fs fw = some data) (hne : outp ≠ fw) (hnb : outp ≠ bakPath fw)
    (h0 : (mainRun fs fw outp needle name).2 = 0) :
    (mainRun fs fw outp needle name).1 fw = some data ∧
    (fs (bakPath fw) = none →
      (mainRun fs fw outp needle name).1 (bakPath fw) = some data) ∧
    (∀ b, fs (bakPath fw) = some b →
      (mainRun fs fw outp needle name).1 (bakPath fw) = some b) ∧
    (∀ q, q ≠ outp → q ≠ bakPath fw → (mainRun fs fw outp needle name).1 q = fs q) := by
  cases hr : runPatch data needle name with
  | notFound => rw [mainRun_notFound outp hdata hr] at h0; simp at h0
  | tooLong => rw [mainRun_tooLong outp hdata hr] at h0; simp at h0
  | ok p o c =>
    refine ⟨?_, fun hb => ?_, fun b hb => ?_, fun q hq1 hq2 => ?_⟩
    · rw [mainRun_ok_lookup hdata hr, if_neg (Ne.symm hne),
        if_neg (bakPath_ne fw), hdata]
    · rw [mainRun_ok_lookup hdata hr, if_neg (Ne.symm hnb), if_pos rfl, hb]
    · rw [mainRun_ok_lookup hdata hr, if_neg (Ne.symm hnb), if_pos rfl, hb]
    · rw [mainRun_ok_lookup hdata hr, if_neg hq1, if_neg hq2]

theorem C9_out_separate_witness :
    (mainRun fsC "fw.bin" "out.bin" [65] [66]).1 "fw.bin" = some [65, 66] ∧
    (mainRun fsC "fw.bin" "out.bin" [65] [66]).1 (bakPath "fw.bin") =
      some [65, 66] := by
  have h := @C9_out_separate fsC "fw.bin" "out.bin" [65] [66] [65, 66]
    (by decide) (by decide) (by decide) (by decide)
  exact ⟨h.1, h.2.1 (by decide)⟩

/-- C10: with an empty needle, `find_all` always matches at offset 0,
so the fallback locator is irrelevant and the capacity is 0: every
non-empty name exits with code 4 leaving the file system unchanged,
while the empty name succeeds and the computed output equals the
input. -/
theorem C10_empty_needle (fs : FS) (fw outp : String) (name data : List Nat)
    (hdata : fs fw = some data) :
    (∃ rest, find_all data [] = 0 :: rest) ∧
    (∀ loc, runPatchWith loc data [] name = runPatch data [] name) ∧
    (name ≠ [] → mainRun fs fw outp [] name = (fs, 4)) ∧
    runPatch data [] [] = PatchOutcome.ok data 0 0 ∧
    ((mainRun fs fw outp [] []).2 = 0 ∧
      (mainRun fs fw outp [] []).1 outp = some data) := by
  have hm : matchesAt data [] 0 = true := by simp [matchesAt]
  have hfa : ∃ rest, find_all data [] = 0 :: rest := by
    cases hfa0 : find_all data [] with
    | nil =>
      rw [find_all_eq_nil.mp hfa0 0] at hm
      exact absurd hm (by simp)
    | cons o rest =>
      have ho : o = 0 := by
        by_contra hne
        rw [(find_all_head hfa0).2 0 (by omega)] at hm
        exact absurd hm (by simp)
      subst ho
      exact ⟨rest, rfl⟩
  obtain ⟨rest, hfa0⟩ := hfa
  have hok : runPatch data [] [] = PatchOutcome.ok data 0 0 := by
    rw [runPatch, runPatchWith_cons _ [] hfa0, if_neg (by simp)]
    rfl
  refine ⟨⟨rest, hfa0⟩, fun loc => ?_, fun hname => ?_, hok, ?_, ?_⟩
  · rw [runPatch, runPatchWith_cons loc name hfa0,
      runPatchWith_cons find_adv_name_field name hfa0]
  · refine mainRun_tooLong outp hdata ?_
    rw [runPatch, runPatchWith_cons _ name hfa0,
      if_pos (by simp [List.length_pos, hname])]
  · exact mainRun_ok_exit outp hdata hok
  · rw [mainRun_ok_lookup hdata hok, if_pos rfl]

theorem C10_empty_needle_witness :
    mainRun fsA "fw.bin" "fw.bin" [] [7] = (fsA, 4) ∧
    runPatch [1, 2, 3] [] [] = PatchOutcome.ok [1, 2, 3] 0 0 ∧
    (mainRun fsA "fw.bin" "fw.bin" [] []).2 = 0 := by
  have h1 := C10_empty_needle fsA "fw.bin" "fw.bin" [7] [1, 2, 3] (by decide)
  have h2 := C10_empty_needle fsA "fw.bin" "fw.bin" [] [1, 2, 3] (by decide)
  exact ⟨h1.2.2.1 (by decide), h1.2.2.2.1, h2.2.2.2.2.1⟩

end BleCtf
